import Mathlib

/-!
Verification of the version-refresh core of `python-source-builds`
(`src/app/applets/core/helpers.py` and `src/app/applets/core/schemas.py`).

The embedding models:
* `packaging.version` parsing and ordering, restricted to the PEP 440 subset
  the pipeline exercises (dotted numeric release segments with an optional
  alphabetic pre-release suffix; epoch/post/dev/local segments are outside the
  subset and are rejected, mirroring `InvalidVersion` by returning `none`);
* `get_version_from_tags`, `get_latest_version`, the status-resolution loop of
  `fetch_and_update_versions`, `update_versions_in_db` (sqlite
  `INSERT OR REPLACE` keyed by the unique `name` column),
  `get_versions_from_db` (`ORDER BY major DESC, minor DESC, patch DESC`), and
  `get_python_versions`.

Effects are made explicit: network results (`get_tags_from_github`,
`get_version_eols`) are inputs, a raised exception is `none` / an error
component, the sqlite table is a list of rows in rowid order, and clock reads
(`datetime.now(UTC)` and its `.date()`) are the parameters `now` / `today`,
timestamps being seconds and dates days since an epoch.  Python's
`timedelta.days` is floor division of the signed second difference by 86400,
which is `Int` division (`Int.ediv`) for the positive divisor.
-/

/-- A parsed version as produced by `packaging.version.parse`: the numeric
release segments plus an optional pre-release marker `(phase, number)` with
phases `a = 0 < b = 1 < rc = 2` (the normalisation `packaging` applies). -/
structure PkgVersion where
  release : List Nat
  pre : Option (Nat × Nat)
deriving DecidableEq, Repr

def PkgVersion.major (v : PkgVersion) : Nat := v.release.getD 0 0

def PkgVersion.minor (v : PkgVersion) : Nat := v.release.getD 1 0

def PkgVersion.micro (v : PkgVersion) : Nat := v.release.getD 2 0

/-- Predicate `Version.is_prerelease` of `packaging` (no dev segments in the subset). -/
def PkgVersion.is_prerelease (v : PkgVersion) : Bool := v.pre.isSome

/-- Split a character list at the dots, as version strings are chunked. -/
def splitDots : List Char → List (List Char)
  | [] => [[]]
  | c :: rest =>
    let r := splitDots rest
    if c = '.' then [] :: r
    else
      match r with
      | [] => [[c]]
      | h :: t => (c :: h) :: t

def natOfDigits (cs : List Char) : Nat :=
  cs.foldl (fun n c => n * 10 + (c.toNat - '0'.toNat)) 0

/-- A non-final release chunk: a nonempty run of digits. -/
def parseRelChunk (cs : List Char) : Option Nat :=
  if cs ≠ [] ∧ cs.all Char.isDigit then some (natOfDigits cs) else none

/-- The pre-release words `packaging` accepts, normalised to a phase rank. -/
def phaseOf (ls : List Char) : Option Nat :=
  if ls = [ 'a' ] then some 0
  else if ls = [ 'a', 'l', 'p', 'h', 'a' ] then some 0
  else if ls = [ 'b' ] then some 1
  else if ls = [ 'b', 'e', 't', 'a' ] then some 1
  else if ls = [ 'c' ] then some 2
  else if ls = [ 'r', 'c' ] then some 2
  else if ls = [ 'p', 'r', 'e' ] then some 2
  else if ls = [ 'p', 'r', 'e', 'v', 'i', 'e', 'w' ] then some 2
  else none

/-- The last chunk of a version string: digits, optionally followed by a
pre-release word and its (possibly empty, defaulting to 0) number. -/
def parseLastChunk (cs : List Char) : Option (Nat × Option (Nat × Nat)) :=
  let ds := cs.takeWhile Char.isDigit
  let rest := cs.dropWhile Char.isDigit
  if ds = [] then none
  else if rest = [] then some (natOfDigits ds, none)
  else
    let ls := rest.takeWhile (fun c => !c.isDigit)
    let ns := rest.dropWhile (fun c => !c.isDigit)
    match phaseOf ls with
    | none => none
    | some ph => if ns.all Char.isDigit then some (natOfDigits ds, some (ph, natOfDigits ns)) else none

def parseChunks : List (List Char) → Option (List Nat × Option (Nat × Nat))
  | [] => none
  | [ c ] =>
    match parseLastChunk c with
    | none => none
    | some (n, mk) => some ([n], mk)
  | c :: rest =>
    match parseRelChunk c, parseChunks rest with
    | some n, some (ns, mk) => some (n :: ns, mk)
    | _, _ => none

def pkg_parseChars (cs : List Char) : Option PkgVersion :=
  (parseChunks (splitDots cs)).map (fun pr => ⟨pr.1, pr.2⟩)

/-- Model of `packaging.version.parse`; `none` models a raised `InvalidVersion`. -/
def pkg_parse (s : String) : Option PkgVersion :=
  pkg_parseChars s.toList

/-- Release keys: `packaging` strips trailing zero segments before comparing. -/
def stripZeros : List Nat → List Nat
  | [] => []
  | a :: rest =>
    match stripZeros rest with
    | [] => if a = 0 then [] else [ a ]
    | r => a :: r

/-- Lexicographic strict order on release keys (Python tuple comparison). -/
def lexLt : List Nat → List Nat → Bool
  | _, [] => false
  | [], _ :: _ => true
  | a :: as1, b :: bs1 => if a < b then true else if a = b then lexLt as1 bs1 else false

/-- Pre-release key comparison: a missing marker is `Infinity` in
`packaging`'s sort key, so a final release outranks every pre-release. -/
def preLt : Option (Nat × Nat) → Option (Nat × Nat) → Bool
  | none, _ => false
  | some _, none => true
  | some p, some q => decide (p.1 < q.1 ∨ (p.1 = q.1 ∧ p.2 < q.2))

/-- Comparison `Version.__lt__` of `packaging`: compare the stripped release
tuples, then the pre-release keys. -/
def pkgLt (a b : PkgVersion) : Bool :=
  lexLt (stripZeros a.release) (stripZeros b.release) ||
    (decide (stripZeros a.release = stripZeros b.release) && preLt a.pre b.pre)

/-- Constant `ACTIVE_VERSIONS` (helpers.py line 21). -/
def ACTIVE_VERSIONS : List String := ["3.9", "3.10", "3.11", "3.12", "3.13"]

/-- Constant `PRE_RELEASE` (helpers.py line 22). -/
def PRE_RELEASE : String := "3.14.0a0"

/-- The series label `f"{version.major}.{version.minor}"`. -/
def seriesOf (v : PkgVersion) : String :=
  toString v.major ++ "." ++ toString v.minor

/-- A raw GitHub tag descriptor; the `ref` field may be absent. -/
structure Tag where
  ref : Option String
deriving DecidableEq

/-- The filter test `item.get("ref", "").startswith("refs/tags/v")`. -/
def hasTagRefStart : List Char → Bool
  | 'r' :: 'e' :: 'f' :: 's' :: '/' :: 't' :: 'a' :: 'g' :: 's' :: '/' :: 'v' :: _ => true
  | _ => false

/-- Python `"...".replace("refs/tags/v", "")`: remove every occurrence,
scanning left to right. -/
def stripTagRef : List Char → List Char
  | 'r' :: 'e' :: 'f' :: 's' :: '/' :: 't' :: 'a' :: 'g' :: 's' :: '/' :: 'v' :: rest =>
      stripTagRef rest
  | c :: rest => c :: stripTagRef rest
  | [] => []

def tagMatches (t : Tag) : Bool := hasTagRefStart (t.ref.getD "").toList

def tagParse (t : Tag) : Option PkgVersion := pkg_parseChars (stripTagRef (t.ref.getD "").toList)

/-- Function `get_version_from_tags` (helpers.py lines 120-133).  The comprehension
parses each descriptor whose ref starts with `refs/tags/v`; `pkg_version.parse`
raises on an unparseable remainder, so the whole call returns `none` there. -/
def get_version_from_tags : List Tag → Option (List PkgVersion)
  | [] => some []
  | t :: rest =>
    if tagMatches t then
      match tagParse t with
      | none => none
      | some v => (get_version_from_tags rest).map (fun vs => v :: vs)
    else get_version_from_tags rest

def lookupS {α : Type} : List (String × α) → String → Option α
  | [], _ => none
  | (k, v) :: rest, s => if k = s then some v else lookupS rest s

/-- One step of the `latest` dict: `latest[series] = version` replaces in
place when the key exists (Python dicts keep insertion position) and appends
otherwise; the replacement happens exactly when the stored value is smaller. -/
def insertLatest (m : List (String × PkgVersion)) (s : String) (v : PkgVersion) :
    List (String × PkgVersion) :=
  match m with
  | [] => [(s, v)]
  | (k, w) :: rest =>
    if k = s then (if pkgLt w v then (k, v) else (k, w)) :: rest
    else (k, w) :: insertLatest rest s v

def updLatest (m : List (String × PkgVersion)) (v : PkgVersion) : List (String × PkgVersion) :=
  insertLatest m (seriesOf v) v

/-- Function `get_latest_version` (helpers.py lines 136-150): fold the versions into a
series-keyed dict keeping the maximum, then keep the active series. -/
def get_latest_version (all_versions : List PkgVersion) : List (String × PkgVersion) :=
  (all_versions.foldl updLatest []).filter (fun p => decide (p.1 ∈ ACTIVE_VERSIONS))

/-- The `Version` row (schemas.py lines 9-18 / the sqlite columns); the
timestamp is seconds since an epoch. -/
structure VersionRecord where
  name : String
  major : Nat
  minor : Nat
  patch : Nat
  level : String
  status : String
  last_updated : Int
deriving DecidableEq, Repr

def pyName (v : PkgVersion) : String :=
  "Python " ++ toString v.major ++ "." ++ toString v.minor ++ "." ++ toString v.micro

/-- One `INSERT OR REPLACE` keyed by the unique `name` column: the conflicting
row is deleted and the new row appended (fresh rowid). -/
def applyUpsert (store : List VersionRecord) (v : VersionRecord) : List VersionRecord :=
  store.filter (fun r => decide (r.name ≠ v.name)) ++ [ v ]

/-- Function `update_versions_in_db` (helpers.py lines 153-168): `executemany` of
`INSERT OR REPLACE`, committed as one batch. -/
def update_versions_in_db (versions : List VersionRecord) (store : List VersionRecord) :
    List VersionRecord :=
  versions.foldl applyUpsert store

/-- Strictly greater `(major, minor, patch)` sort key. -/
def keyGt (a b : VersionRecord) : Bool :=
  decide (b.major < a.major ∨ (b.major = a.major ∧
    (b.minor < a.minor ∨ (b.minor = a.minor ∧ b.patch < a.patch))))

def insertDesc (r : VersionRecord) : List VersionRecord → List VersionRecord
  | [] => [ r ]
  | x :: xs => if keyGt r x then r :: x :: xs else x :: insertDesc r xs

/-- Function `get_versions_from_db` (helpers.py lines 171-195): all rows ordered by
`major DESC, minor DESC, patch DESC` (order among equal keys is not fixed by
the query; no claim depends on it). -/
def get_versions_from_db : List VersionRecord → List VersionRecord
  | [] => []
  | r :: rest => insertDesc r (get_versions_from_db rest)

/-- The status-assignment body of the resolve loop (helpers.py lines 209-224):
pre-releases are skipped; a final release gets `feature` with no EOL entry,
`bugfix` while today is on or before the EOL date, and is dropped past it. -/
def build_final (today now : Int) (eols : List (String × Int)) (key : String)
    (v : PkgVersion) : Option VersionRecord :=
  if v.is_prerelease then none
  else
    match lookupS eols key with
    | none => some ⟨pyName v, v.major, v.minor, v.micro, "final", "feature", now⟩
    | some eol =>
      if today ≤ eol then some ⟨pyName v, v.major, v.minor, v.micro, "final", "bugfix", now⟩
      else none

/-- The synthesized pre-release block (helpers.py lines 226-239): `PRE_RELEASE`
is non-empty, so it is parsed and appended with `level="alpha"`,
`status="prerelease"` (the parse of the constant succeeds, see
`pre_release_parses`). -/
def synth_pre (now : Int) : List VersionRecord :=
  if PRE_RELEASE = "" then []
  else
    match pkg_parse PRE_RELEASE with
    | none => []
    | some pv => [ ⟨pyName pv, pv.major, pv.minor, pv.micro, "alpha", "prerelease", now⟩ ]

/-- The resolve step of `fetch_and_update_versions` (helpers.py lines
206-239): the per-series loop over `latest_versions.items()` followed by the
synthesized pre-release record. -/
def resolve_versions (latest : List (String × PkgVersion)) (eols : List (String × Int))
    (today now : Int) : List VersionRecord :=
  latest.filterMap (fun p => build_final today now eols p.1 p.2) ++ synth_pre now

/-- Function `fetch_and_update_versions` (helpers.py lines 198-245) with its effects
explicit: `ghTags` is what `get_tags_from_github` returned (it fails soft to
`[]`), `eolResult` is the outcome of `get_version_eols` (which fails hard),
and the returned pair is (raised exception if any, record store afterwards).
An exception leaves the store untouched because the single write is the last
step. -/
def fetch_and_update_versions (ghTags : List Tag)
    (eolResult : Except String (List (String × Int))) (today now : Int)
    (store : List VersionRecord) : Option String × List VersionRecord :=
  match get_version_from_tags ghTags with
  | none => (some "InvalidVersion", store)
  | some all_versions =>
    match eolResult with
    | Except.error e => (some e, store)
    | Except.ok eols =>
      (none, update_versions_in_db
        (resolve_versions (get_latest_version all_versions) eols today now) store)

/-- The staleness test of `get_python_versions` (helpers.py line 256):
`not db_versions or (datetime.now(UTC) - db_versions[0].last_updated).days > 1`,
on the already-sorted read result. -/
def needs_refresh (db_versions : List VersionRecord) (now : Int) : Bool :=
  match db_versions with
  | [] => true
  | r :: _ => decide ((now - r.last_updated) / 86400 > 1)

/-- Function `get_python_versions` (helpers.py lines 248-261): read, refresh
synchronously when empty or stale, re-read; the refresh is not guarded, so a
refresh exception propagates to the caller (the `Except.error` component). -/
def get_python_versions (ghTags : List Tag)
    (eolResult : Except String (List (String × Int))) (today now : Int)
    (store : List VersionRecord) :
    Except String (List VersionRecord) × List VersionRecord :=
  let db_versions := get_versions_from_db store
  if needs_refresh db_versions now then
    match fetch_and_update_versions ghTags eolResult today now store with
    | (some e, store2) => (Except.error e, store2)
    | (none, store2) => (Except.ok (get_versions_from_db store2), store2)
  else (Except.ok db_versions, store)

/-- The greatest `last_updated` among the stored records — the timestamp of
the most recently updated (freshest) record, when the store is non-empty. -/
def maxLastUpdated : List VersionRecord → Option Int
  | [] => none
  | r :: rest =>
    match maxLastUpdated rest with
    | none => some r.last_updated
    | some t => some (max r.last_updated t)

/-- The trigger predicate as the claim and spec (§4.6, testable property 8)
word it: refresh exactly when the store is empty or the most recently updated
record's `lastUpdated` is more than 24 hours (86400 seconds) in the past.
Kept separate from `needs_refresh`, which is the code's test, so the two can
be compared. -/
def spec_needs_refresh (store : List VersionRecord) (now : Int) : Bool :=
  match maxLastUpdated store with
  | none => true
  | some t => decide (86400 < now - t)

/-- Record names of a batch. -/
def namesOf (batch : List VersionRecord) : List String := batch.map VersionRecord.name

/-- The rows a batch leaves behind: the last occurrence of each name, in
order of last occurrence. -/
def lastsByName : List VersionRecord → List VersionRecord
  | [] => []
  | v :: rest => if v.name ∈ namesOf rest then lastsByName rest else v :: lastsByName rest

/-- The series label of a stored record, `f"{major}.{minor}"` over its
columns. -/
def seriesStr (r : VersionRecord) : String :=
  toString r.major ++ "." ++ toString r.minor

/-- The record synthesized from `PRE_RELEASE` in every cycle. -/
def preRecord (now : Int) : VersionRecord :=
  ⟨"Python 3.14.0", 3, 14, 0, "alpha", "prerelease", now⟩

/-- Keys (series labels) of an association-list dictionary. -/
def keysOf {α : Type} (m : List (String × α)) : List String := m.map Prod.fst

/-- Invariant of the `latest` dict after folding a processed prefix `done`:
keys are distinct, every entry stores a processed version of its series that
no processed version of the same series exceeds, and every processed version
has an entry for its series. -/
def LatestInv (done : List PkgVersion) (m : List (String × PkgVersion)) : Prop :=
  (keysOf m).Nodup ∧
    (∀ p ∈ m, p.2 ∈ done ∧ seriesOf p.2 = p.1 ∧
      ∀ u ∈ done, seriesOf u = p.1 → pkgLt p.2 u = false) ∧
    (∀ u ∈ done, ∃ p ∈ m, p.1 = seriesOf u)

theorem pre_release_parses : pkg_parse PRE_RELEASE = some ⟨[3, 14, 0], some (0, 0)⟩ := by
  decide

/-! ### Ordering lemmas for the embedded `packaging` comparison -/

theorem lexLt_irrefl (l : List Nat) : lexLt l l = false := by
  induction l with
  | nil => rfl
  | cons a as1 ih => simp [lexLt, ih]

theorem lexLt_trans : ∀ {a b c : List Nat},
    lexLt a b = true → lexLt b c = true → lexLt a c = true := by
  intro a
  induction a with
  | nil =>
    intro b c hab hbc
    cases c with
    | nil => cases b <;> simp [lexLt] at hab hbc
    | cons x xs => simp [lexLt]
  | cons x xs ih =>
    intro b c hab hbc
    cases b with
    | nil => simp [lexLt] at hab
    | cons y ys =>
      cases c with
      | nil => simp [lexLt] at hbc
      | cons z zs =>
        simp only [lexLt] at hab hbc ⊢
        by_cases hxy : x < y
        · by_cases hyz : y < z
          · simp [show x < z by omega]
          · simp [hyz] at hbc
            rcases hbc with ⟨hyz2, _⟩
            simp [show x < z by omega]
        · simp [hxy] at hab
          rcases hab with ⟨hxy2, hab⟩
          subst hxy2
          by_cases hyz : x < z
          · simp [hyz]
          · simp [hyz] at hbc ⊢
            rcases hbc with ⟨hyz2, hbc⟩
            subst hyz2
            exact ⟨rfl, ih hab hbc⟩

theorem preLt_irrefl (p : Option (Nat × Nat)) : preLt p p = false := by
  cases p with
  | none => rfl
  | some q => simp [preLt]

theorem preLt_trans {a b c : Option (Nat × Nat)}
    (hab : preLt a b = true) (hbc : preLt b c = true) : preLt a c = true := by
  cases a with
  | none => simp [preLt] at hab
  | some p =>
    cases b with
    | none => simp [preLt] at hbc
    | some q =>
      cases c with
      | none => simp [preLt]
      | some r =>
        simp [preLt] at hab hbc ⊢
        omega

theorem pkgLt_irrefl (v : PkgVersion) : pkgLt v v = false := by
  simp [pkgLt, lexLt_irrefl, preLt_irrefl]

theorem pkgLt_trans {a b c : PkgVersion}
    (hab : pkgLt a b = true) (hbc : pkgLt b c = true) : pkgLt a c = true := by
  simp only [pkgLt, Bool.or_eq_true, Bool.and_eq_true, decide_eq_true_eq] at hab hbc ⊢
  rcases hab with hab | ⟨hab, hab2⟩
  · rcases hbc with hbc | ⟨hbc, _⟩
    · exact Or.inl (lexLt_trans hab hbc)
    · exact Or.inl (hbc ▸ hab)
  · rcases hbc with hbc | ⟨hbc, hbc2⟩
    · exact Or.inl (hab ▸ hbc)
    · exact Or.inr ⟨hab.trans hbc, preLt_trans hab2 hbc2⟩

theorem lexLt_nil_of_ne {m : List Nat} (h : m ≠ []) : lexLt [] m = true := by
  cases m with
  | nil => exact absurd rfl h
  | cons x xs => rfl

theorem lexLt_append_last (l : List Nat) (a b : Nat) :
    lexLt (l ++ [ a ]) (l ++ [ b ]) = decide (a < b) := by
  induction l with
  | nil =>
    by_cases h : a < b
    · simp [lexLt, h]
    · by_cases h2 : a = b <;> simp [lexLt, h, h2]
  | cons x xs ih => simp [lexLt, ih]

theorem stripZeros_cons (x : Nat) (l : List Nat) :
    stripZeros (x :: l) = match stripZeros l with
      | [] => if x = 0 then [] else [ x ]
      | r => x :: r := rfl

theorem stripZeros_append_pos (l : List Nat) (a : Nat) (h : a ≠ 0) :
    stripZeros (l ++ [ a ]) = l ++ [ a ] := by
  induction l with
  | nil => simp [stripZeros, h]
  | cons x xs ih =>
    rw [List.cons_append, stripZeros_cons, ih]
    cases hx : xs ++ [ a ] with
    | nil => simp at hx
    | cons y ys => rfl

theorem stripZeros_append_zero (l : List Nat) :
    stripZeros (l ++ [ 0 ]) = stripZeros l := by
  induction l with
  | nil => simp [stripZeros]
  | cons x xs ih => rw [List.cons_append, stripZeros_cons, ih, stripZeros_cons]

theorem lexLt_strip_self_append (l : List Nat) (b : Nat) (_hb : b ≠ 0) :
    lexLt (stripZeros l) (l ++ [ b ]) = true := by
  induction l with
  | nil => simp [stripZeros, lexLt]
  | cons a as1 ih =>
    simp only [stripZeros, List.cons_append]
    cases h : stripZeros as1 with
    | nil =>
      by_cases ha : a = 0
      · simp [ha, lexLt]
      · simp only [ha, if_false]
        simp only [lexLt, lt_irrefl, if_false, if_pos rfl]
        exact lexLt_nil_of_ne (by simp)
    | cons y ys =>
      simp only [lexLt, lt_irrefl, if_false, if_pos rfl]
      have := ih
      rw [h] at this
      exact this

theorem lexLt_append_strip_self (l : List Nat) (a : Nat) :
    lexLt (l ++ [ a ]) (stripZeros l) = false := by
  induction l with
  | nil => simp [stripZeros, lexLt]
  | cons c cs ih =>
    simp only [stripZeros, List.cons_append]
    cases h : stripZeros cs with
    | nil =>
      by_cases hc : c = 0
      · simp [hc, lexLt]
      · simp only [hc, if_false]
        simp [lexLt]
    | cons y ys =>
      simp only [lexLt, lt_irrefl, if_false, if_pos rfl]
      have := ih
      rw [h] at this
      exact this

theorem lexLt_strip_append_iff (l : List Nat) (a b : Nat) :
    lexLt (stripZeros (l ++ [ a ])) (stripZeros (l ++ [ b ])) = true ↔ a < b := by
  by_cases ha : a = 0
  · by_cases hb : b = 0
    · subst ha; subst hb
      simp [lexLt_irrefl]
    · subst ha
      rw [stripZeros_append_zero, stripZeros_append_pos l b hb,
        lexLt_strip_self_append l b hb]
      simp [Nat.pos_of_ne_zero hb]
  · by_cases hb : b = 0
    · subst hb
      rw [stripZeros_append_zero, stripZeros_append_pos l a ha,
        lexLt_append_strip_self]
      simp
    · rw [stripZeros_append_pos l a ha, stripZeros_append_pos l b hb,
        lexLt_append_last]
      simp

/-! ### Lookup and insertion lemmas for the series dictionary -/

theorem lookupS_none_iff {α : Type} (m : List (String × α)) (s : String) :
    lookupS m s = none ↔ s ∉ keysOf m := by
  induction m with
  | nil => simp [lookupS, keysOf]
  | cons p rest ih =>
    obtain ⟨k, v⟩ := p
    by_cases h : k = s
    · subst h
      simp [lookupS, keysOf]
    · simp only [lookupS, if_neg h, keysOf, List.map_cons, List.mem_cons]
      rw [ih]
      constructor
      · intro h1 h2
        rcases h2 with h2 | h2
        · exact h h2.symm
        · exact h1 h2
      · intro h1 h2
        exact h1 (Or.inr h2)

theorem lookupS_mem {α : Type} {m : List (String × α)} {s : String} {v : α}
    (h : lookupS m s = some v) : (s, v) ∈ m := by
  induction m with
  | nil => simp [lookupS] at h
  | cons p rest ih =>
    obtain ⟨k, w⟩ := p
    by_cases hk : k = s
    · subst hk
      simp [lookupS] at h
      simp [h]
    · simp [lookupS, hk] at h
      simp [ih h]

theorem mem_lookupS {α : Type} {m : List (String × α)} {s : String} {v : α}
    (hmem : (s, v) ∈ m) (hn : (keysOf m).Nodup) : lookupS m s = some v := by
  induction m with
  | nil => simp at hmem
  | cons p rest ih =>
    obtain ⟨k, w⟩ := p
    simp only [keysOf, List.map_cons, List.nodup_cons] at hn
    rcases List.mem_cons.mp hmem with h | h
    · obtain ⟨hk, hv⟩ := Prod.mk.injEq .. ▸ h
      rw [Prod.mk.injEq] at h
      simp [lookupS, h.1, h.2]
    · have hk : k ≠ s := by
        intro hk
        subst hk
        exact hn.1 (by simpa [keysOf] using List.mem_map_of_mem Prod.fst h)
      simp [lookupS, hk, ih h hn.2]

theorem insertLatest_keys_mem {m : List (String × PkgVersion)} {s : String}
    (v : PkgVersion) (h : s ∈ keysOf m) :
    keysOf (insertLatest m s v) = keysOf m := by
  induction m with
  | nil => simp [keysOf] at h
  | cons p rest ih =>
    obtain ⟨k, w⟩ := p
    by_cases hk : k = s
    · subst hk
      by_cases hlt : pkgLt w v <;> simp [insertLatest, hlt, keysOf]
    · simp only [keysOf, List.map_cons, List.mem_cons] at h
      rcases h with h | h
      · exact absurd h.symm hk
      · have h2 := ih h
        simp only [insertLatest, if_neg hk]
        simp only [keysOf, List.map_cons] at h2 ⊢
        rw [h2]

theorem insertLatest_keys_not_mem {m : List (String × PkgVersion)} {s : String}
    (v : PkgVersion) (h : s ∉ keysOf m) :
    keysOf (insertLatest m s v) = keysOf m ++ [ s ] := by
  induction m with
  | nil => simp [insertLatest, keysOf]
  | cons p rest ih =>
    obtain ⟨k, w⟩ := p
    simp only [keysOf, List.map_cons, List.mem_cons] at h
    push_neg at h
    have hk : k ≠ s := fun hk => h.1 hk.symm
    have h2 := ih h.2
    simp only [insertLatest, if_neg hk]
    simp only [keysOf, List.map_cons] at h2 ⊢
    rw [h2, List.cons_append]

theorem insertLatest_mem {m : List (String × PkgVersion)} {s : String}
    {v : PkgVersion} {p : String × PkgVersion} (hn : (keysOf m).Nodup)
    (hp : p ∈ insertLatest m s v) :
    (p ∈ m ∧ (p.1 = s → pkgLt p.2 v = false)) ∨
      (p = (s, v) ∧ (lookupS m s = none ∨
        ∃ w, lookupS m s = some w ∧ pkgLt w v = true)) := by
  induction m with
  | nil =>
    simp [insertLatest] at hp
    exact Or.inr ⟨hp, Or.inl rfl⟩
  | cons q rest ih =>
    obtain ⟨k, w⟩ := q
    simp only [keysOf, List.map_cons, List.nodup_cons] at hn
    by_cases hk : k = s
    · subst hk
      by_cases hlt : pkgLt w v
      · simp only [insertLatest, hlt, if_true, if_pos rfl] at hp
        rcases List.mem_cons.mp hp with h | h
        · exact Or.inr ⟨h, Or.inr ⟨w, by simp [lookupS], hlt⟩⟩
        · refine Or.inl ⟨List.mem_cons_of_mem _ h, fun h1 => ?_⟩
          exact absurd (by simpa [keysOf] using List.mem_map_of_mem Prod.fst h : p.1 ∈ keysOf rest)
            (h1 ▸ hn.1)
      · simp only [insertLatest, hlt, if_false, if_pos rfl] at hp
        rcases List.mem_cons.mp hp with h | h
        · subst h
          exact Or.inl ⟨List.mem_cons_self _ _, fun _ => Bool.not_eq_true _ ▸ by
            simpa using hlt⟩
        · refine Or.inl ⟨List.mem_cons_of_mem _ h, fun h1 => ?_⟩
          exact absurd (by simpa [keysOf] using List.mem_map_of_mem Prod.fst h : p.1 ∈ keysOf rest)
            (h1 ▸ hn.1)
    · simp only [insertLatest, hk, if_false] at hp
      rcases List.mem_cons.mp hp with h | h
      · subst h
        exact Or.inl ⟨List.mem_cons_self _ _, fun h1 => absurd h1 hk⟩
      · rcases ih hn.2 h with ⟨h1, h2⟩ | ⟨h1, h2⟩
        · exact Or.inl ⟨List.mem_cons_of_mem _ h1, h2⟩
        · exact Or.inr ⟨h1, by simpa [lookupS, hk] using h2⟩

theorem latestInv_step {done : List PkgVersion} {m : List (String × PkgVersion)}
    (hinv : LatestInv done m) (v : PkgVersion) :
    LatestInv (done ++ [ v ]) (updLatest m v) := by
  obtain ⟨hnd, hent, hcov⟩ := hinv
  refine ⟨?_, ?_, ?_⟩
  · by_cases hmem : seriesOf v ∈ keysOf m
    · rw [updLatest, insertLatest_keys_mem v hmem]
      exact hnd
    · rw [updLatest, insertLatest_keys_not_mem v hmem]
      rw [List.nodup_append]
      exact ⟨hnd, List.nodup_singleton _, by
        intro a ha hb
        simp at hb
        subst hb
        exact hmem ha⟩
  · intro p hp
    rcases insertLatest_mem hnd hp with ⟨h1, h2⟩ | ⟨h1, h2⟩
    · obtain ⟨m1, m2, m3⟩ := hent p h1
      refine ⟨List.mem_append_left _ m1, m2, ?_⟩
      intro u hu hser
      rcases List.mem_append.mp hu with hu | hu
      · exact m3 u hu hser
      · simp at hu
        rw [hu] at hser ⊢
        exact h2 hser.symm
    · subst h1
      refine ⟨List.mem_append_right _ (by simp), rfl, ?_⟩
      intro u hu hser
      have hser2 : seriesOf u = seriesOf v := hser
      rcases List.mem_append.mp hu with hu | hu
      · rcases h2 with h2 | ⟨w, hw, hlt⟩
        · exfalso
          obtain ⟨q, hq, hq1⟩ := hcov u hu
          rw [lookupS_none_iff] at h2
          apply h2
          have hqk : q.1 ∈ keysOf m := List.mem_map_of_mem Prod.fst hq
          rw [hq1, hser2] at hqk
          exact hqk
        · obtain ⟨m1, m2, m3⟩ := hent (seriesOf v, w) (lookupS_mem hw)
          have hwu : pkgLt w u = false := m3 u hu hser2
          by_contra hvu
          have hvu2 : pkgLt v u = true := by
            cases h4 : pkgLt v u
            · exact absurd h4 hvu
            · rfl
          have h5 : pkgLt w u = true := pkgLt_trans hlt hvu2
          rw [hwu] at h5
          exact Bool.false_ne_true h5
      · simp at hu
        rw [hu]
        exact pkgLt_irrefl v
  · intro u hu
    rcases List.mem_append.mp hu with hu | hu
    · obtain ⟨q, hq, hq1⟩ := hcov u hu
      have : q.1 ∈ keysOf (updLatest m v) := by
        by_cases hmem : seriesOf v ∈ keysOf m
        · rw [updLatest, insertLatest_keys_mem v hmem]
          exact List.mem_map_of_mem Prod.fst hq
        · rw [updLatest, insertLatest_keys_not_mem v hmem]
          exact List.mem_append_left _ (List.mem_map_of_mem Prod.fst hq)
      obtain ⟨p, hp, hp1⟩ := List.mem_map.mp this
      exact ⟨p, hp, hp1.trans hq1⟩
    · simp at hu
      rw [hu]
      have : seriesOf v ∈ keysOf (updLatest m v) := by
        by_cases hmem : seriesOf v ∈ keysOf m
        · rw [updLatest, insertLatest_keys_mem v hmem]
          exact hmem
        · rw [updLatest, insertLatest_keys_not_mem v hmem]
          exact List.mem_append_right _ (by simp)
      obtain ⟨p, hp, hp1⟩ := List.mem_map.mp this
      exact ⟨p, hp, hp1⟩

theorem latestInv_foldl (rest : List PkgVersion) :
    ∀ (done : List PkgVersion) (m : List (String × PkgVersion)),
      LatestInv done m → LatestInv (done ++ rest) (rest.foldl updLatest m) := by
  induction rest with
  | nil =>
    intro done m h
    simpa using h
  | cons v vs ih =>
    intro done m h
    have h2 := ih (done ++ [ v ]) (updLatest m v) (latestInv_step h v)
    rw [List.append_assoc] at h2
    simpa using h2

theorem latestInv_glv (vs : List PkgVersion) : LatestInv vs (vs.foldl updLatest []) := by
  have h0 : LatestInv [] [] := by
    refine ⟨List.nodup_nil, ?_, ?_⟩ <;> intro p hp <;> simp at hp
  simpa using latestInv_foldl vs [] [] h0

theorem glv_keys_nodup (vs : List PkgVersion) :
    (keysOf (get_latest_version vs)).Nodup := by
  have h := (latestInv_glv vs).1
  have hsub : (get_latest_version vs).Sublist (vs.foldl updLatest []) :=
    List.filter_sublist _
  exact (hsub.map Prod.fst).nodup h

theorem glv_mem (vs : List PkgVersion) {p : String × PkgVersion}
    (hp : p ∈ get_latest_version vs) :
    p.1 ∈ ACTIVE_VERSIONS ∧ p.2 ∈ vs ∧ seriesOf p.2 = p.1 ∧
      ∀ w ∈ vs, seriesOf w = p.1 → pkgLt p.2 w = false := by
  obtain ⟨hm, hact⟩ := List.mem_filter.mp hp
  obtain ⟨m1, m2, m3⟩ := (latestInv_glv vs).2.1 p hm
  exact ⟨by simpa using hact, m1, m2, m3⟩

theorem glv_lookup (vs : List PkgVersion) {s : String} {v : PkgVersion}
    (h : lookupS (get_latest_version vs) s = some v) :
    s ∈ ACTIVE_VERSIONS ∧ v ∈ vs ∧ seriesOf v = s ∧
      ∀ w ∈ vs, seriesOf w = s → pkgLt v w = false := by
  have hmem := lookupS_mem h
  have := glv_mem vs hmem
  simpa using this

theorem glv_lookup_of_mem (vs : List PkgVersion) {p : String × PkgVersion}
    (hp : p ∈ get_latest_version vs) :
    lookupS (get_latest_version vs) p.1 = some p.2 :=
  mem_lookupS (by simpa using hp) (glv_keys_nodup vs)

/-! ### The record store: `INSERT OR REPLACE` batch semantics -/

theorem names_lastsByName {b : List VersionRecord} {r : VersionRecord}
    (h : r ∈ lastsByName b) : r.name ∈ namesOf b := by
  induction b with
  | nil => simp [lastsByName] at h
  | cons v rest ih =>
    simp only [lastsByName] at h
    by_cases hm : v.name ∈ namesOf rest
    · rw [if_pos hm] at h
      simp only [namesOf, List.map_cons, List.mem_cons]
      exact Or.inr (ih h)
    · rw [if_neg hm] at h
      simp only [namesOf, List.map_cons, List.mem_cons]
      rcases List.mem_cons.mp h with h | h
      · exact Or.inl (by rw [h])
      · exact Or.inr (ih h)

theorem upsert_eq (b : List VersionRecord) :
    ∀ store : List VersionRecord,
      update_versions_in_db b store =
        store.filter (fun r => decide (r.name ∉ namesOf b)) ++ lastsByName b := by
  induction b with
  | nil =>
    intro store
    simp [update_versions_in_db, lastsByName, namesOf]
  | cons v rest ih =>
    intro store
    have step : update_versions_in_db (v :: rest) store =
        update_versions_in_db rest (applyUpsert store v) := rfl
    rw [step, ih]
    rw [applyUpsert, List.filter_append]
    have hfilter : (store.filter (fun r => decide (r.name ≠ v.name))).filter
        (fun r => decide (r.name ∉ namesOf rest)) =
        store.filter (fun r => decide (r.name ∉ namesOf (v :: rest))) := by
      rw [List.filter_filter]
      apply List.filter_congr
      intro a _
      simp only [namesOf, List.map_cons, List.mem_cons, not_or]
      by_cases h1 : a.name = v.name <;>
        by_cases h2 : a.name ∈ List.map VersionRecord.name rest <;> simp [h1, h2]
    rw [hfilter]
    by_cases hm : v.name ∈ namesOf rest
    · have h1 : List.filter (fun r => decide (r.name ∉ namesOf rest)) [ v ] = [] := by
        simp [List.filter, hm]
      rw [h1]
      have h2 : lastsByName (v :: rest) = lastsByName rest := by
        simp [lastsByName, hm]
      rw [h2, List.append_nil]
    · have h1 : List.filter (fun r => decide (r.name ∉ namesOf rest)) [ v ] = [ v ] := by
        simp [List.filter, hm]
      rw [h1]
      have h2 : lastsByName (v :: rest) = v :: lastsByName rest := by
        simp [lastsByName, hm]
      rw [h2, List.append_assoc]
      rfl

theorem filter_lastsByName_nil (b : List VersionRecord) :
    (lastsByName b).filter (fun r => decide (r.name ∉ namesOf b)) = [] := by
  rw [List.filter_eq_nil_iff]
  intro r hr
  simp only [decide_eq_true_eq]
  intro hcontra
  exact hcontra (names_lastsByName hr)

theorem upsert_frame (b : List VersionRecord) (store : List VersionRecord) :
    (update_versions_in_db b store).filter (fun r => decide (r.name ∉ namesOf b)) =
      store.filter (fun r => decide (r.name ∉ namesOf b)) := by
  rw [upsert_eq, List.filter_append, filter_lastsByName_nil, List.append_nil,
    List.filter_filter]
  apply List.filter_congr
  intro a _
  rw [Bool.and_self]

theorem upsert_idem (b : List VersionRecord) (store : List VersionRecord) :
    update_versions_in_db b (update_versions_in_db b store) =
      update_versions_in_db b store := by
  rw [upsert_eq b (update_versions_in_db b store), upsert_frame, ← upsert_eq]

theorem upsert_keeps_foreign {b store : List VersionRecord} {r : VersionRecord}
    (hr : r ∈ store) (hn : r.name ∉ namesOf b) :
    r ∈ update_versions_in_db b store := by
  rw [upsert_eq]
  exact List.mem_append_left _ (List.mem_filter.mpr ⟨hr, by simpa using hn⟩)

/-! ### Resolve-step lemmas -/

theorem synth_pre_eq (now : Int) : synth_pre now = [ preRecord now ] := rfl

theorem mem_resolve_iff (latest : List (String × PkgVersion))
    (eols : List (String × Int)) (today now : Int) (r : VersionRecord) :
    r ∈ resolve_versions latest eols today now ↔
      (∃ p ∈ latest, build_final today now eols p.1 p.2 = some r) ∨ r = preRecord now := by
  rw [resolve_versions, synth_pre_eq, List.mem_append, List.mem_filterMap]
  simp

theorem build_final_fields {today now : Int} {eols : List (String × Int)}
    {key : String} {v : PkgVersion} {r : VersionRecord}
    (h : build_final today now eols key v = some r) :
    r.major = v.major ∧ r.minor = v.minor ∧ r.patch = v.micro ∧
      r.name = pyName v ∧ r.level = "final" ∧
      (r.status = "feature" ∨ r.status = "bugfix") ∧ r.last_updated = now := by
  rw [build_final] at h
  split at h
  · exact absurd h (by simp)
  · split at h
    · simp only [Option.some.injEq] at h
      subst h
      simp
    · split at h
      · simp only [Option.some.injEq] at h
        subst h
        simp
      · exact absurd h (by simp)

/-! ### Claim theorems -/

/-- Claim C7 (confirmed): for every resolver input — any series dictionary,
any EOL map (both possibly empty), any dates — the resolve step's output
contains the synthesized pre-release record built from the configured
`PRE_RELEASE` identifier, with `level = "alpha"` and `status = "prerelease"`. -/
theorem c7_synth_pre_always_emitted (latest : List (String × PkgVersion))
    (eols : List (String × Int)) (today now : Int) :
    preRecord now ∈ resolve_versions latest eols today now := by
  rw [mem_resolve_iff]
  exact Or.inr rfl

/-- Claim C10 (confirmed): every record a refresh cycle's resolve step emits
has status among feature, bugfix, prerelease and level among final, alpha;
the remaining declared statuses (security, end-of-life) and levels (beta,
release-candidate) are never assigned. -/
theorem c10_status_level_range (latest : List (String × PkgVersion))
    (eols : List (String × Int)) (today now : Int) (r : VersionRecord)
    (hr : r ∈ resolve_versions latest eols today now) :
    (r.status = "feature" ∨ r.status = "bugfix" ∨ r.status = "prerelease") ∧
      (r.level = "final" ∨ r.level = "alpha") := by
  rcases (mem_resolve_iff latest eols today now r).mp hr with ⟨p, _, hb⟩ | hpre
  · obtain ⟨_, _, _, _, hlv, hst, _⟩ := build_final_fields hb
    rcases hst with hst | hst
    · exact ⟨Or.inl hst, Or.inl hlv⟩
    · exact ⟨Or.inr (Or.inl hst), Or.inl hlv⟩
  · subst hpre
    exact ⟨Or.inr (Or.inr rfl), Or.inr rfl⟩

/-- Witness for C10 at a concrete input: the synthesized record of the empty
cycle. -/
theorem c10_status_level_range_witness :
    ((preRecord 0).status = "feature" ∨ (preRecord 0).status = "bugfix" ∨
      (preRecord 0).status = "prerelease") ∧
      ((preRecord 0).level = "final" ∨ (preRecord 0).level = "alpha") :=
  c10_status_level_range [] [] 0 0 (preRecord 0) (by decide)

/-- Claim C8 (confirmed): `update_versions_in_db` is idempotent — running the
same batch twice leaves the very same store, hence the same
`get_versions_from_db` output, as running it once. -/
theorem c8_upsert_idempotent (batch store : List VersionRecord) :
    get_versions_from_db
        (update_versions_in_db batch (update_versions_in_db batch store)) =
      get_versions_from_db (update_versions_in_db batch store) ∧
    update_versions_in_db batch (update_versions_in_db batch store) =
      update_versions_in_db batch store :=
  ⟨congrArg get_versions_from_db (upsert_idem batch store), upsert_idem batch store⟩

/-- Claim C9 (confirmed): an upsert batch never removes or modifies a stored
row whose name is outside the batch, and because rows are keyed by the full
`Python major.minor.patch` name, two patches of one series coexist, so
`get_versions_from_db` can return two records of the same `(major, minor)`
series. -/
theorem c9_upsert_frame (batch store : List VersionRecord) :
    (update_versions_in_db batch store).filter
        (fun r => decide (r.name ∉ namesOf batch)) =
      store.filter (fun r => decide (r.name ∉ namesOf batch)) ∧
    (∀ r ∈ store, r.name ∉ namesOf batch → r ∈ update_versions_in_db batch store) ∧
    ((⟨"Python 3.12.0", 3, 12, 0, "final", "bugfix", 0⟩ : VersionRecord) ∈
        get_versions_from_db
          (update_versions_in_db [ ⟨"Python 3.12.1", 3, 12, 1, "final", "bugfix", 5⟩ ]
            (update_versions_in_db [ ⟨"Python 3.12.0", 3, 12, 0, "final", "bugfix", 0⟩ ] [])) ∧
      (⟨"Python 3.12.1", 3, 12, 1, "final", "bugfix", 5⟩ : VersionRecord) ∈
        get_versions_from_db
          (update_versions_in_db [ ⟨"Python 3.12.1", 3, 12, 1, "final", "bugfix", 5⟩ ]
            (update_versions_in_db [ ⟨"Python 3.12.0", 3, 12, 0, "final", "bugfix", 0⟩ ] [])) ∧
      seriesStr ⟨"Python 3.12.0", 3, 12, 0, "final", "bugfix", 0⟩ =
        seriesStr ⟨"Python 3.12.1", 3, 12, 1, "final", "bugfix", 5⟩ ∧
      (⟨"Python 3.12.0", 3, 12, 0, "final", "bugfix", 0⟩ : VersionRecord) ≠
        ⟨"Python 3.12.1", 3, 12, 1, "final", "bugfix", 5⟩) :=
  ⟨upsert_frame batch store,
   fun r hr hn => upsert_keeps_foreign hr hn,
   by decide, by decide, by decide, by decide⟩

/-- Witness for C9 at a concrete input: a foreign row survives an upsert. -/
theorem c9_upsert_frame_witness :
    (⟨"Python 3.11.4", 3, 11, 4, "final", "bugfix", 0⟩ : VersionRecord) ∈
      update_versions_in_db [ ⟨"Python 3.12.1", 3, 12, 1, "final", "bugfix", 5⟩ ]
        [ ⟨"Python 3.11.4", 3, 11, 4, "final", "bugfix", 0⟩ ] :=
  (c9_upsert_frame [ ⟨"Python 3.12.1", 3, 12, 1, "final", "bugfix", 5⟩ ]
      [ ⟨"Python 3.11.4", 3, 11, 4, "final", "bugfix", 0⟩ ]).2.1
    ⟨"Python 3.11.4", 3, 11, 4, "final", "bugfix", 0⟩ (by decide) (by decide)

/-- Claim C6 (confirmed): when the EOL fetch fails, the whole refresh cycle
returns that error with the record store exactly as it was — no record,
including the synthesized pre-release, is upserted.  The hypothesis says the
tag-parse step did not itself raise first, reflecting that the EOL fetch
happens after it in the cycle. -/
theorem c6_eol_failure_aborts_cycle (ghTags : List Tag) (e : String)
    (today now : Int) (store : List VersionRecord)
    (h : (get_version_from_tags ghTags).isSome = true) :
    fetch_and_update_versions ghTags (Except.error e) today now store =
      (some e, store) := by
  cases hg : get_version_from_tags ghTags with
  | none => rw [hg] at h; simp at h
  | some l => simp [fetch_and_update_versions, hg]

/-- Witness for C6 at a concrete input: empty tag list, failing EOL feed. -/
theorem c6_eol_failure_aborts_cycle_witness :
    (get_version_from_tags []).isSome = true ∧
      fetch_and_update_versions [] (Except.error "eol feed down") 0 0
          [ ⟨"Python 3.12.1", 3, 12, 1, "final", "bugfix", 5⟩ ] =
        (some "eol feed down", [ ⟨"Python 3.12.1", 3, 12, 1, "final", "bugfix", 5⟩ ]) :=
  ⟨by decide, c6_eol_failure_aborts_cycle [] "eol feed down" 0 0
    [ ⟨"Python 3.12.1", 3, 12, 1, "final", "bugfix", 5⟩ ] (by decide)⟩

/-- Claim C3 (code bug): at the failing input — an empty store, which forces
the on-demand refresh, with a failing EOL fetch — `get_python_versions`
surfaces the exception to its caller (the error component) instead of
returning the remaining (here empty) stored records; the refresh call on
helpers.py line 258 is not guarded and `fetch_and_update_versions` re-raises
(line 245), while spec §7 requires the façade never to raise and itself flags
the source behaviour as a bug to fix. -/
theorem c3_on_demand_refresh_raises :
    get_python_versions [] (Except.error "eol feed down") 0 0 [] =
      (Except.error "eol feed down", ([] : List VersionRecord)) ∧
    ∀ l : List VersionRecord,
      (get_python_versions [] (Except.error "eol feed down") 0 0 []).1 ≠ Except.ok l := by
  refine ⟨rfl, ?_⟩
  intro l h
  have h2 : (get_python_versions [] (Except.error "eol feed down") 0 0 []).1 =
      Except.error "eol feed down" := rfl
  rw [h2] at h
  exact Except.noConfusion h

/-- Claim C1 (counterexample): a store holding one record 25 hours old.  The
claim's trigger (`spec_needs_refresh`: freshest record more than 24 hours old)
fires, but the code's test (`timedelta.days > 1` on the first row of the
sorted read) does not — and indeed `get_python_versions` performs no refresh
and returns the stored record as-is, refuting "triggers exactly when ... more
than 24 hours in the past". -/
theorem c1_counterexample :
    spec_needs_refresh [ ⟨"Python 3.13.0", 3, 13, 0, "final", "bugfix", 0⟩ ] 90000 = true ∧
    needs_refresh
        (get_versions_from_db [ ⟨"Python 3.13.0", 3, 13, 0, "final", "bugfix", 0⟩ ])
        90000 = false ∧
    get_python_versions [] (Except.ok []) 1 90000
        [ ⟨"Python 3.13.0", 3, 13, 0, "final", "bugfix", 0⟩ ] =
      (Except.ok [ ⟨"Python 3.13.0", 3, 13, 0, "final", "bugfix", 0⟩ ],
        [ ⟨"Python 3.13.0", 3, 13, 0, "final", "bugfix", 0⟩ ]) :=
  ⟨by decide, by decide, rfl⟩

/-- Claim C1 (amended, proved): the on-demand refresh triggers exactly when
the read result is empty or the first row of the `(major, minor, patch)`
descending listing — not necessarily the most recently updated record — has
`lastUpdated` at least 48 hours (two full days, `timedelta.days > 1`) in the
past; and when it does not trigger, the façade performs no refresh and
returns the stored records as-is. -/
theorem c1_refresh_trigger (ghTags : List Tag)
    (eolResult : Except String (List (String × Int))) (today now : Int)
    (store : List VersionRecord) :
    (needs_refresh (get_versions_from_db store) now = true ↔
      (get_versions_from_db store = [] ∨
        ∃ r rest, get_versions_from_db store = r :: rest ∧
          172800 ≤ now - r.last_updated)) ∧
    (needs_refresh (get_versions_from_db store) now = false →
      get_python_versions ghTags eolResult today now store =
        (Except.ok (get_versions_from_db store), store)) := by
  constructor
  · generalize get_versions_from_db store = db
    cases db with
    | nil => simp [needs_refresh]
    | cons r rest =>
      simp only [needs_refresh, decide_eq_true_eq]
      constructor
      · intro h
        exact Or.inr ⟨r, rest, rfl, by omega⟩
      · rintro (h | ⟨r2, rest2, heq, h⟩)
        · simp at h
        · injection heq with h1 h2
          subst h1
          omega
  · intro h
    rw [get_python_versions]
    simp only [h]
    rfl

/-- Witness for the amended C1 at a concrete input: a record 500 seconds old
triggers nothing and the stored rows come back unchanged. -/
theorem c1_refresh_trigger_witness :
    needs_refresh
        (get_versions_from_db [ ⟨"Python 3.13.0", 3, 13, 0, "final", "bugfix", 500⟩ ])
        1000 = false ∧
    get_python_versions [] (Except.ok []) 0 1000
        [ ⟨"Python 3.13.0", 3, 13, 0, "final", "bugfix", 500⟩ ] =
      (Except.ok
          (get_versions_from_db [ ⟨"Python 3.13.0", 3, 13, 0, "final", "bugfix", 500⟩ ]),
        [ ⟨"Python 3.13.0", 3, 13, 0, "final", "bugfix", 500⟩ ]) :=
  ⟨by decide,
    (c1_refresh_trigger [] (Except.ok []) 0 1000
      [ ⟨"Python 3.13.0", 3, 13, 0, "final", "bugfix", 500⟩ ]).2 (by decide)⟩

/-- Claim C2 (counterexample): a descriptor whose ref matches the
`refs/tags/v` pattern but whose remainder is not a version.
`pkg_version.parse` raises `InvalidVersion` (modelled by `none`), so
`get_version_from_tags` raises instead of silently discarding it, refuting
"never raises an error". -/
theorem c2_counterexample :
    get_version_from_tags [ ⟨some "refs/tags/vbogus"⟩ ] = none := by decide

/-- Claim C2 (amended, proved): descriptors whose ref does not start with
`refs/tags/v` are silently discarded, and when every matching descriptor's
stripped ref parses, the result is exactly the parses of the matching
descriptors in order; but a single matching descriptor that fails to parse
makes the whole call raise (`none`) rather than being discarded. -/
theorem c2_tag_parsing (tags : List Tag) :
    ((∀ t ∈ tags, tagMatches t = true → (tagParse t).isSome = true) →
      get_version_from_tags tags =
        some ((tags.filter tagMatches).filterMap tagParse)) ∧
    ((∃ t ∈ tags, tagMatches t = true ∧ tagParse t = none) →
      get_version_from_tags tags = none) := by
  induction tags with
  | nil =>
    constructor
    · intro _
      simp [get_version_from_tags]
    · rintro ⟨t, ht, _⟩
      simp at ht
  | cons t rest ih =>
    constructor
    · intro hall
      by_cases hm : tagMatches t
      · have hp := hall t (by simp) hm
        cases hpv : tagParse t with
        | none => rw [hpv] at hp; simp at hp
        | some v =>
          simp only [get_version_from_tags, hm, if_true, hpv]
          rw [ih.1 (fun u hu hmu => hall u (by simp [hu]) hmu)]
          simp [hm, hpv]
      · simp only [get_version_from_tags, hm, if_false]
        rw [ih.1 (fun u hu hmu => hall u (by simp [hu]) hmu)]
        simp [hm]
    · rintro ⟨u, hu, hmu, hpu⟩
      rcases List.mem_cons.mp hu with rfl | hu2
      · simp [get_version_from_tags, hmu, hpu]
      · by_cases hm : tagMatches t
        · cases hpv : tagParse t with
          | none => simp [get_version_from_tags, hm, hpv]
          | some v =>
            simp only [get_version_from_tags, hm, if_true, hpv]
            rw [ih.2 ⟨u, hu2, hmu, hpu⟩]
            rfl
        · simp only [get_version_from_tags, hm, if_false]
          exact ih.2 ⟨u, hu2, hmu, hpu⟩

/-- Witness for the amended C2 at concrete inputs: a mixed list with one
matching good tag, one non-matching tag and one ref-less tag parses to the
single match, and a matching bad tag makes the call raise. -/
theorem c2_tag_parsing_witness :
    get_version_from_tags [ ⟨some "refs/tags/v3.12.1"⟩, ⟨some "random"⟩, ⟨none⟩ ] =
      some (([ ⟨some "refs/tags/v3.12.1"⟩, ⟨some "random"⟩, (⟨none⟩ : Tag) ].filter
          tagMatches).filterMap tagParse) ∧
    get_version_from_tags [ ⟨some "refs/tags/v3.12.1"⟩, ⟨some "refs/tags/vjunk"⟩ ] = none :=
  ⟨(c2_tag_parsing [ ⟨some "refs/tags/v3.12.1"⟩, ⟨some "random"⟩, ⟨none⟩ ]).1 (by decide),
    (c2_tag_parsing [ ⟨some "refs/tags/v3.12.1"⟩, ⟨some "refs/tags/vjunk"⟩ ]).2
      ⟨⟨some "refs/tags/vjunk"⟩, by decide, by decide, by decide⟩⟩

/-- Claim C5 (confirmed): `get_latest_version` emits at most one version per
series (distinct keys), only for series on the active allow-list, and each
emitted version comes from the input, belongs to its series, and is not
exceeded by any input version of the same series under the `packaging`
ordering — which on a series compares patch numbers numerically and ranks a
final release above any pre-release of the same patch (last two clauses). -/
theorem c5_latest_per_series (vs : List PkgVersion) :
    (keysOf (get_latest_version vs)).Nodup ∧
    (∀ s v, lookupS (get_latest_version vs) s = some v →
      s ∈ ACTIVE_VERSIONS ∧ v ∈ vs ∧ seriesOf v = s ∧
        ∀ w ∈ vs, seriesOf w = s → pkgLt v w = false) ∧
    (∀ M N p q : Nat,
      (pkgLt ⟨[ M, N, p ], none⟩ ⟨[ M, N, q ], none⟩ = true ↔ p < q)) ∧
    (∀ M N p ph k : Nat,
      pkgLt ⟨[ M, N, p ], some (ph, k)⟩ ⟨[ M, N, p ], none⟩ = true) := by
  refine ⟨glv_keys_nodup vs, ?_, ?_, ?_⟩
  · intro s v h
    exact glv_lookup vs h
  · intro M N p q
    constructor
    · intro h
      simp only [pkgLt, Bool.or_eq_true, Bool.and_eq_true] at h
      rcases h with h | ⟨_, h⟩
      · exact (lexLt_strip_append_iff [ M, N ] p q).mp h
      · exact absurd h (by simp [preLt])
    · intro h
      simp only [pkgLt, Bool.or_eq_true]
      exact Or.inl ((lexLt_strip_append_iff [ M, N ] p q).mpr h)
  · intro M N p ph k
    simp [pkgLt, lexLt_irrefl, preLt]

/-- Witness for C5 at a concrete input: among `3.12.0` and `3.12.1` the
selection keeps `3.12.1`, and the ordering clauses at `3.12.0 < 3.12.1`. -/
theorem c5_latest_per_series_witness :
    (("3.12" : String) ∈ ACTIVE_VERSIONS ∧
      (⟨[ 3, 12, 1 ], none⟩ : PkgVersion) ∈
        [ (⟨[ 3, 12, 0 ], none⟩ : PkgVersion), ⟨[ 3, 12, 1 ], none⟩ ] ∧
      seriesOf ⟨[ 3, 12, 1 ], none⟩ = "3.12" ∧
      ∀ w ∈ [ (⟨[ 3, 12, 0 ], none⟩ : PkgVersion), ⟨[ 3, 12, 1 ], none⟩ ],
        seriesOf w = "3.12" → pkgLt ⟨[ 3, 12, 1 ], none⟩ w = false) ∧
    (pkgLt ⟨[ 3, 12, 0 ], none⟩ ⟨[ 3, 12, 1 ], none⟩ = true ↔ 0 < 1) :=
  ⟨(c5_latest_per_series [ ⟨[ 3, 12, 0 ], none⟩, ⟨[ 3, 12, 1 ], none⟩ ]).2.1
      "3.12" ⟨[ 3, 12, 1 ], none⟩ (by decide),
    (c5_latest_per_series [ ⟨[ 3, 12, 0 ], none⟩, ⟨[ 3, 12, 1 ], none⟩ ]).2.2.1 3 12 0 1⟩

/-- Claim C4 (confirmed): for a retained active series whose latest version is
a final release, the cycle emits `status = "feature"` when the EOL map has no
entry for the series, `status = "bugfix"` when today is on or before the EOL
date, and past the EOL date it emits no record at all for that series — so an
upsert of the cycle's batch leaves any previously stored row whose name is
outside the batch untouched. -/
theorem c4_eol_status (vs : List PkgVersion) (eols : List (String × Int))
    (today now : Int) (key : String) (v : PkgVersion)
    (hl : lookupS (get_latest_version vs) key = some v)
    (hfin : v.is_prerelease = false) :
    (lookupS eols key = none →
      (⟨pyName v, v.major, v.minor, v.micro, "final", "feature", now⟩ : VersionRecord) ∈
        resolve_versions (get_latest_version vs) eols today now) ∧
    (∀ d, lookupS eols key = some d → today ≤ d →
      (⟨pyName v, v.major, v.minor, v.micro, "final", "bugfix", now⟩ : VersionRecord) ∈
        resolve_versions (get_latest_version vs) eols today now) ∧
    (∀ d, lookupS eols key = some d → d < today →
      (∀ r ∈ resolve_versions (get_latest_version vs) eols today now, seriesStr r ≠ key) ∧
      (∀ (store : List VersionRecord) (r : VersionRecord), r ∈ store →
        r.name ∉ namesOf (resolve_versions (get_latest_version vs) eols today now) →
        r ∈ update_versions_in_db
          (resolve_versions (get_latest_version vs) eols today now) store)) := by
  have hmem : (key, v) ∈ get_latest_version vs := lookupS_mem hl
  refine ⟨?_, ?_, ?_⟩
  · intro hn
    rw [mem_resolve_iff]
    exact Or.inl ⟨(key, v), hmem, by simp [build_final, hfin, hn]⟩
  · intro d hd ht
    rw [mem_resolve_iff]
    exact Or.inl ⟨(key, v), hmem, by simp [build_final, hfin, hd, ht]⟩
  · intro d hd ht
    constructor
    · intro r hr
      rw [mem_resolve_iff] at hr
      rcases hr with ⟨p, hp, hb⟩ | rfl
      · obtain ⟨hM, hm2, _, _, _, _, _⟩ := build_final_fields hb
        obtain ⟨_, _, hser, _⟩ := glv_mem vs hp
        have hs : seriesStr r = p.1 := by
          rw [seriesStr, hM, hm2]
          exact hser
        intro hcontra
        rw [hs] at hcontra
        have h5 := glv_lookup_of_mem vs hp
        rw [hcontra] at h5
        have h6 := hl.symm.trans h5
        injection h6 with h7
        rw [hcontra, ← h7] at hb
        simp [build_final, hfin, hd, not_le.mpr ht] at hb
      · have h314 : seriesStr (preRecord now) = "3.14" := by
          show toString (3 : Nat) ++ "." ++ toString (14 : Nat) = "3.14"
          rfl
        have hact : key ∈ ACTIVE_VERSIONS := (glv_lookup vs hl).1
        intro hcontra
        rw [h314] at hcontra
        rw [← hcontra] at hact
        exact absurd hact (by decide)
    · intro store r hr hn
      exact upsert_keeps_foreign hr hn

/-- Witness for C4 at concrete inputs: series `3.12` latest `3.12.1` gets
`feature` with an empty EOL map, `bugfix` with EOL in the future, and with a
past EOL no emitted record carries series `3.12` (checked on the synthesized
record) while a foreign-named stored row survives the upsert. -/
theorem c4_eol_status_witness :
    (⟨"Python 3.12.1", 3, 12, 1, "final", "feature", 7⟩ : VersionRecord) ∈
      resolve_versions (get_latest_version [ ⟨[ 3, 12, 1 ], none⟩ ]) [] 50 7 ∧
    (⟨"Python 3.12.1", 3, 12, 1, "final", "bugfix", 7⟩ : VersionRecord) ∈
      resolve_versions (get_latest_version [ ⟨[ 3, 12, 1 ], none⟩ ])
        [ ("3.12", 100) ] 50 7 ∧
    seriesStr (preRecord 7) ≠ "3.12" ∧
    (⟨"Python 3.9.9", 3, 9, 9, "final", "bugfix", 0⟩ : VersionRecord) ∈
      update_versions_in_db
        (resolve_versions (get_latest_version [ ⟨[ 3, 12, 1 ], none⟩ ])
          [ ("3.12", 10) ] 50 7)
        [ ⟨"Python 3.9.9", 3, 9, 9, "final", "bugfix", 0⟩ ] := by
  refine ⟨?_, ?_, ?_, ?_⟩
  · exact (c4_eol_status [ ⟨[ 3, 12, 1 ], none⟩ ] [] 50 7 "3.12" ⟨[ 3, 12, 1 ], none⟩
      (by decide) rfl).1 rfl
  · exact (c4_eol_status [ ⟨[ 3, 12, 1 ], none⟩ ] [ ("3.12", 100) ] 50 7 "3.12"
      ⟨[ 3, 12, 1 ], none⟩ (by decide) rfl).2.1 100 rfl (by decide)
  · exact ((c4_eol_status [ ⟨[ 3, 12, 1 ], none⟩ ] [ ("3.12", 10) ] 50 7 "3.12"
      ⟨[ 3, 12, 1 ], none⟩ (by decide) rfl).2.2 10 rfl (by decide)).1
      (preRecord 7) (by decide)
  · exact ((c4_eol_status [ ⟨[ 3, 12, 1 ], none⟩ ] [ ("3.12", 10) ] 50 7 "3.12"
      ⟨[ 3, 12, 1 ], none⟩ (by decide) rfl).2.2 10 rfl (by decide)).2
      [ ⟨"Python 3.9.9", 3, 9, 9, "final", "bugfix", 0⟩ ]
      ⟨"Python 3.9.9", 3, 9, 9, "final", "bugfix", 0⟩ (by decide) (by decide)
